import Mathlib

/-!
Verification of the preprocessing utilities of karvenka/kaggle-airbnb
(src/scripts/utils/preprocessing.py).

The Python module defines four operations over in-memory tabular data:

* `one_hot_encoding data categorical_features` : for each listed column name,
  look the column up (a KeyError if absent), build one binary indicator column
  per observed category via the tabular library, drop the original column and
  append the indicator columns at the end of the table.
* `XGBFeatureSelection.feature_importances_` : read the fitted boosted-tree
  model internal split-frequency dictionary (keys such as "f12") and scatter
  the scores into a zero-initialised vector of length `n_features`.
* `_sanitize_holiday_name` : keep only alphanumeric characters and spaces,
  lowercase, and replace each space by an underscore.
* `process_holidays` : build a calendar date from the year/month/day fields of
  a single record, enumerate the US holiday calendar of that year, and store
  the signed day distance to each holiday in a column named from the sanitized
  holiday name.

Modelling conventions.  Tables are association lists of named columns, a
column being a list of cells; a cell is a string (categorical data) or a
machine integer (indicator values), modelled by the inductive type `Cell`.
Fallible operations return `Option`.  Python day arithmetic on `datetime.date`
is embedded through the proleptic-Gregorian ordinal (`toordinal`), exactly the
algorithm used by CPython (cumulative month table plus leap-year rule), with
machine integers as unbounded integers.  Unicode-dependent character
predicates (`str.isalpha`, `str.isdigit`, `str.lower`) are idealised to their
ASCII behaviour, which is the range exercised by the holiday names the code
feeds them.
-/

/-- A cell of the tabular dataset: either a categorical (string) value or an
integer value (the indicator columns produced by the one-hot encoding hold
integers 0 and 1). -/
inductive Cell where
  | str (s : String)
  | nat (n : Nat)
deriving DecidableEq

/-- Rendering of a cell as done by the tabular library when it builds the name
of an indicator column out of a category value. -/
def cellStr : Cell → String
  | .str s => s
  | .nat n => toString n

/-- A named column of the table. -/
abbrev Column := String × List Cell

/-- A table: an ordered association list of named columns. -/
abbrev DataFrame := List Column

/-- Column selection `data[name]` as consumed by the encoding loop: the
unique column carrying the name.  Zero matches raise a KeyError at the
selection itself; with several matching columns the selection yields a
two-dimensional object and the `get_dummies` call on it raises in turn, so
an iteration succeeds exactly when the label matches one column, and the
model folds both failures into the selection. -/
def getCol (data : DataFrame) (name : String) : Option (List Cell) :=
  match data.filter (fun c => c.1 == name) with
  | [c] => some c.2
  | _ => none

/-- Name of the indicator column generated for category value `v` of the
encoded column `f`: the original column name, a separator, and the printed
value (the default naming scheme of the tabular library). -/
def dummyName (f : String) (v : Cell) : String := f ++ "_" ++ cellStr v

/-- Embedding of the tabular library call producing the indicator columns of
one column: one binary column per distinct observed category value, each row
holding 1 exactly where the original column holds that value.  The order in
which the distinct values are listed is abstracted by `List.dedup`. -/
def get_dummies (col : List Cell) (f : String) : DataFrame :=
  col.dedup.map (fun v =>
    (dummyName f v, col.map (fun c => Cell.nat (if c = v then 1 else 0))))

/-- Embedding of `one_hot_encoding`: iterate over the listed column names; for
each one select the column (failing when absent), drop every column carrying
that name, and append the generated indicator columns at the end. -/
def one_hot_encoding : DataFrame → List String → Option DataFrame
  | data, [] => some data
  | data, feature :: rest => do
      let col ← getCol data feature
      let data_dummy := get_dummies col feature
      let dropped := data.filter (fun c => !(c.1 == feature))
      one_hot_encoding (dropped ++ data_dummy) rest

/-- Unfolding of one iteration of the encoding loop. -/
theorem one_hot_encoding_cons (data : DataFrame) (feature : String) (rest : List String) :
    one_hot_encoding data (feature :: rest) =
      (getCol data feature).bind (fun col =>
        one_hot_encoding (data.filter (fun c => !(c.1 == feature)) ++ get_dummies col feature) rest) := by
  cases h : getCol data feature <;> simp [one_hot_encoding, h]

/-- Membership in the generated indicator columns. -/
theorem mem_get_dummies (p : Column) (col : List Cell) (f : String) :
    p ∈ get_dummies col f ↔
      ∃ v ∈ col.dedup, p = (dummyName f v, col.map (fun c => Cell.nat (if c = v then 1 else 0))) := by
  simp [get_dummies, eq_comm]

/-- Tables whose columns named `g` agree give the same selection of `g`. -/
theorem getCol_eq_of_filter_eq (data data' : DataFrame) (g : String)
    (h : data.filter (fun c => c.1 == g) = data'.filter (fun c => c.1 == g)) :
    getCol data g = getCol data' g := by
  unfold getCol
  rw [h]

/-- A successful column selection returns a column of the table. -/
theorem getCol_eq_some_mem {data : DataFrame} {f : String} {col : List Cell}
    (h : getCol data f = some col) : (f, col) ∈ data := by
  unfold getCol at h
  cases hf : data.filter (fun c => c.1 == f) with
  | nil => rw [hf] at h; exact absurd h (by simp)
  | cons c rest =>
      cases rest with
      | nil =>
          rw [hf] at h
          injection h with h
          have hcmem : c ∈ data.filter (fun c => c.1 == f) := by
            rw [hf]
            exact List.mem_cons_self c []
          have hmem := (List.mem_filter.1 hcmem).1
          have hname := (List.mem_filter.1 hcmem).2
          simp only [beq_iff_eq] at hname
          cases c with
          | mk n vs => cases h; cases hname; exact hmem
      | cons c' rest' => rw [hf] at h; exact absurd h (by simp)

/-- Dropping the columns named `f` does not remove or add columns named
`g` for a different name `g`. -/
theorem filter_name_drop (data : DataFrame) (f g : String) (h : g ≠ f) :
    (data.filter (fun c => !(c.1 == f))).filter (fun c => c.1 == g) =
      data.filter (fun c => c.1 == g) := by
  rw [List.filter_filter]
  apply List.filter_congr
  intro c _
  by_cases hcg : c.1 = g
  · simp [hcg, h]
  · simp [hcg]

/-- Dropping the columns named `f` does not change the selection of a column
with a different name. -/
theorem getCol_filter_ne (data : DataFrame) (f g : String) (h : g ≠ f) :
    getCol (data.filter (fun c => !(c.1 == f))) g = getCol data g :=
  getCol_eq_of_filter_eq _ _ g (filter_name_drop data f g h)

/-- No indicator column generated for `f` carries a name outside the
`dummyName f` family. -/
theorem filter_get_dummies_nil (col : List Cell) (f g : String)
    (h : ∀ v : Cell, dummyName f v ≠ g) :
    (get_dummies col f).filter (fun c => c.1 == g) = [] := by
  rw [List.filter_eq_nil_iff]
  intro p hp
  rcases (mem_get_dummies p col f).1 hp with ⟨v, _, rfl⟩
  simp [h v]

/-- Appending the indicator columns of `f` does not change the selection of a
name outside the `dummyName f` family. -/
theorem getCol_append_dummies (data : DataFrame) (col : List Cell) (f g : String)
    (h : ∀ v : Cell, dummyName f v ≠ g) :
    getCol (data ++ get_dummies col f) g = getCol data g := by
  apply getCol_eq_of_filter_eq
  rw [List.filter_append, filter_get_dummies_nil col f g h, List.append_nil]

/-- Core description of the encoding loop: under hygienic inputs (pairwise
distinct names to encode, all present in the table, generated indicator names
not being names to encode) the loop succeeds, and a column belongs to the
output exactly when it is an untouched input column or an indicator column of
an encoded input column. -/
theorem one_hot_mem_iff (features : List String) : ∀ data : DataFrame,
    features.Nodup →
    (∀ f ∈ features, (getCol data f).isSome) →
    (∀ f ∈ features, ∀ v : Cell, dummyName f v ∉ features) →
    ∃ out, one_hot_encoding data features = some out ∧
      ∀ p : Column, p ∈ out ↔
        ((p ∈ data ∧ p.1 ∉ features) ∨
         (∃ f ∈ features, ∃ col, getCol data f = some col ∧
            ∃ v ∈ col.dedup,
              p = (dummyName f v, col.map (fun c => Cell.nat (if c = v then 1 else 0))))) := by
  induction features with
  | nil =>
      intro data _ _ _
      exact ⟨data, rfl, by simp⟩
  | cons f rest ih =>
      intro data hnd hpres hfresh
      obtain ⟨col, hcol⟩ := Option.isSome_iff_exists.1 (hpres f (List.mem_cons_self f rest))
      set data' := data.filter (fun c => !(c.1 == f)) ++ get_dummies col f with hdata'
      have hget : ∀ g ∈ rest, getCol data' g = getCol data g := by
        intro g hg
        have hgf : g ≠ f := fun he => (List.nodup_cons.1 hnd).1 (he ▸ hg)
        have hne : ∀ v : Cell, dummyName f v ≠ g := fun v he =>
          hfresh f (List.mem_cons_self f rest) v (he ▸ List.mem_cons_of_mem f hg)
        rw [hdata', getCol_append_dummies _ col f g hne, getCol_filter_ne data f g hgf]
      have hnd' : rest.Nodup := (List.nodup_cons.1 hnd).2
      have hpres' : ∀ g ∈ rest, (getCol data' g).isSome := fun g hg => by
        rw [hget g hg]; exact hpres g (List.mem_cons_of_mem f hg)
      have hfresh' : ∀ g ∈ rest, ∀ v : Cell, dummyName g v ∉ rest := fun g hg v hin =>
        hfresh g (List.mem_cons_of_mem f hg) v (List.mem_cons_of_mem f hin)
      obtain ⟨out, hout, hmem⟩ := ih data' hnd' hpres' hfresh'
      have hdmem : ∀ p : Column, p ∈ data' ↔
          (p ∈ data ∧ p.1 ≠ f) ∨
          (∃ v ∈ col.dedup,
            p = (dummyName f v, col.map (fun c => Cell.nat (if c = v then 1 else 0)))) := by
        intro p
        rw [hdata', List.mem_append, List.mem_filter, mem_get_dummies]
        simp
      refine ⟨out, ?_, ?_⟩
      · rw [one_hot_encoding_cons, hcol]; exact hout
      · intro p
        rw [hmem p]
        constructor
        · rintro (⟨hp, hnr⟩ | ⟨g, hg, colg, hcolg, v, hv, rfl⟩)
          · rcases (hdmem p).1 hp with ⟨hpd, hpf⟩ | ⟨v, hv, rfl⟩
            · refine Or.inl ⟨hpd, ?_⟩
              intro hin
              rcases List.mem_cons.1 hin with he | he
              · exact hpf he
              · exact hnr he
            · exact Or.inr ⟨f, List.mem_cons_self f rest, col, hcol, v, hv, rfl⟩
          · rw [hget g hg] at hcolg
            exact Or.inr ⟨g, List.mem_cons_of_mem f hg, colg, hcolg, v, hv, rfl⟩
        · rintro (⟨hp, hnf⟩ | ⟨g, hg, colg, hcolg, v, hv, rfl⟩)
          · have h1 : p.1 ≠ f := fun he => hnf (he ▸ List.mem_cons_self f rest)
            have h2 : p.1 ∉ rest := fun hin => hnf (List.mem_cons_of_mem f hin)
            exact Or.inl ⟨(hdmem p).2 (Or.inl ⟨hp, h1⟩), h2⟩
          · rcases List.mem_cons.1 hg with rfl | hgrest
            · rw [hcol] at hcolg
              injection hcolg with he
              subst he
              refine Or.inl ⟨(hdmem _).2 (Or.inr ⟨v, hv, rfl⟩), ?_⟩
              intro hin
              exact hfresh g (List.mem_cons_self g rest) v (List.mem_cons_of_mem g hin)
            · refine Or.inr ⟨g, hgrest, colg, ?_, v, hv, rfl⟩
              rw [hget g hgrest]
              exact hcolg

/-- The encoding loop preserves the common length of all columns. -/
theorem one_hot_encoding_length (features : List String) : ∀ (data out : DataFrame) (n : Nat),
    (∀ c ∈ data, c.2.length = n) →
    one_hot_encoding data features = some out →
    ∀ c ∈ out, c.2.length = n := by
  induction features with
  | nil =>
      intro data out n h he
      injection he with he
      exact he ▸ h
  | cons f rest ih =>
      intro data out n h he
      rw [one_hot_encoding_cons] at he
      cases hcol : getCol data f with
      | none => rw [hcol] at he; exact absurd he (by simp)
      | some col =>
          rw [hcol, Option.some_bind] at he
          refine ih _ _ n ?_ he
          intro c hc
          rcases List.mem_append.1 hc with hc | hc
          · exact h c (List.mem_of_mem_filter hc)
          · rcases (mem_get_dummies c col f).1 hc with ⟨v, hv, rfl⟩
            simpa using h (f, col) (getCol_eq_some_mem hcol)

/-- Whenever the encoding loop returns a table, every input column whose name
is not listed for encoding is still in the output, with its values (hence
their row order) unchanged. -/
theorem one_hot_encoding_untouched (features : List String) : ∀ (data out : DataFrame),
    one_hot_encoding data features = some out →
    ∀ p ∈ data, p.1 ∉ features → p ∈ out := by
  induction features with
  | nil =>
      intro data out he p hp _
      injection he with he
      exact he ▸ hp
  | cons f rest ih =>
      intro data out he p hp hnf
      rw [one_hot_encoding_cons] at he
      cases hcol : getCol data f with
      | none => rw [hcol] at he; exact absurd he (by simp)
      | some col =>
          rw [hcol, Option.some_bind] at he
          have h1 : p.1 ≠ f := fun he2 => hnf (he2 ▸ List.mem_cons_self f rest)
          refine ih _ _ he p ?_ (fun hin => hnf (List.mem_cons_of_mem f hin))
          exact List.mem_append.2 (Or.inl (List.mem_filter.2 ⟨hp, by simp [h1]⟩))

/-- If a listed name is absent from the table and can never arise as a
generated indicator name, the encoding loop fails. -/
theorem one_hot_encoding_missing (features : List String) : ∀ (data : DataFrame) (f : String),
    f ∈ features →
    getCol data f = none →
    (∀ g ∈ features, ∀ v : Cell, dummyName g v ≠ f) →
    one_hot_encoding data features = none := by
  induction features with
  | nil => intro data f hf _ _; exact absurd hf (by simp)
  | cons g rest ih =>
      intro data f hf habs hnd
      rw [one_hot_encoding_cons]
      cases hcol : getCol data g with
      | none => rfl
      | some col =>
          rw [Option.some_bind]
          have hfg : f ≠ g := by
            intro he
            rw [he, hcol] at habs
            exact absurd habs (by simp)
          have hf' : f ∈ rest := (List.mem_cons.1 hf).resolve_left hfg
          refine ih _ f hf' ?_ (fun g' hg' => hnd g' (List.mem_cons_of_mem g hg'))
          rw [getCol_append_dummies _ col g f (hnd g (List.mem_cons_self g rest)),
            getCol_filter_ne data g f hfg, habs]

/-- In each row, exactly one of the indicator columns generated for one
encoded column is set to 1. -/
theorem get_dummies_one_per_row (col : List Cell) (f : String) (i : Nat) (hi : i < col.length) :
    (get_dummies col f).countP (fun q => decide (q.2[i]? = some (Cell.nat 1))) = 1 := by
  unfold get_dummies
  rw [List.countP_map]
  have h1 : List.count col[i] col.dedup = 1 :=
    List.count_eq_one_of_mem (List.nodup_dedup col) (List.mem_dedup.2 (List.getElem_mem hi))
  rw [List.count_eq_countP] at h1
  refine Eq.trans ?_ h1
  apply List.countP_congr
  intro v hv
  by_cases h : col[i] = v
  · simp [Function.comp, List.getElem?_map, List.getElem?_eq_getElem hi, h]
  · simp [Function.comp, List.getElem?_map, List.getElem?_eq_getElem hi, h, Ne.symm h]

/-- A generated indicator name is strictly longer than the encoded column
name, hence different from any string at most that long. -/
theorem dummyName_ne_of_length_le (pre t : String) (v : Cell) (h : t.length ≤ pre.length) :
    dummyName pre v ≠ t := by
  intro he
  have hl := congrArg String.length he
  rw [dummyName, String.length_append, String.length_append] at hl
  have : ("_" : String).length = 1 := rfl
  omega

/-- Claim C1 (corrected): the claim quantifies over every list of categorical
column names present in the table, but a later iteration can consume an
indicator column generated earlier.  With the listed names a_x, a, a_x on a
table with columns a_x and a, every selection matches exactly one column (the
homonymous input column a_x is already encoded and dropped before the
indicator a_x of column a exists), so the call returns a table, yet the third
iteration re-encodes and drops that indicator, and the claimed column set is
wrong; see the counterexample.  Amended with the hypotheses that the listed
names are pairwise distinct, each carried by exactly one column, and that no
generated indicator name is itself a listed name: encoding then succeeds, the
output column names are exactly the untouched input names plus one indicator
name per distinct observed value per encoded column, and in every row exactly
one indicator column per encoded column is set to 1. -/
theorem one_hot_encoding_columns (data : DataFrame) (features : List String)
    (hnd : features.Nodup)
    (hpres : ∀ f ∈ features, (getCol data f).isSome)
    (hfresh : ∀ f ∈ features, ∀ v : Cell, dummyName f v ∉ features) :
    ∃ out, one_hot_encoding data features = some out ∧
      (∀ n : String, (∃ vs, (n, vs) ∈ out) ↔
        (((∃ vs, (n, vs) ∈ data) ∧ n ∉ features) ∨
         (∃ f ∈ features, ∃ col, getCol data f = some col ∧ ∃ v ∈ col, n = dummyName f v))) ∧
      (∀ f ∈ features, ∀ col, getCol data f = some col →
        (∀ q ∈ get_dummies col f, q ∈ out) ∧
        (∀ i, i < col.length →
          (get_dummies col f).countP (fun q => decide (q.2[i]? = some (Cell.nat 1))) = 1)) := by
  obtain ⟨out, hout, hmem⟩ := one_hot_mem_iff features data hnd hpres hfresh
  refine ⟨out, hout, ?_, ?_⟩
  · intro n
    constructor
    · rintro ⟨vs, hvs⟩
      rcases (hmem _).1 hvs with ⟨hd, hnf⟩ | ⟨f, hf, col, hcol, v, hv, he⟩
      · exact Or.inl ⟨⟨vs, hd⟩, hnf⟩
      · refine Or.inr ⟨f, hf, col, hcol, v, List.mem_dedup.1 hv, ?_⟩
        exact congrArg Prod.fst he
    · rintro (⟨⟨vs, hd⟩, hnf⟩ | ⟨f, hf, col, hcol, v, hv, rfl⟩)
      · exact ⟨vs, (hmem _).2 (Or.inl ⟨hd, hnf⟩)⟩
      · exact ⟨_, (hmem _).2 (Or.inr ⟨f, hf, col, hcol, v, List.mem_dedup.2 hv, rfl⟩)⟩
  · intro f hf col hcol
    refine ⟨?_, fun i hi => get_dummies_one_per_row col f i hi⟩
    intro q hq
    rcases (mem_get_dummies q col f).1 hq with ⟨v, hv, rfl⟩
    exact (hmem _).2 (Or.inr ⟨f, hf, col, hcol, v, hv, rfl⟩)

theorem one_hot_encoding_columns_witness :
    ∃ out, one_hot_encoding [("color", [Cell.str "red"]), ("size", [Cell.nat 7])] ["color"] = some out ∧
      (∃ vs, ("color_red", vs) ∈ out) ∧ (∃ vs, ("size", vs) ∈ out) := by
  obtain ⟨out, h1, h2, _⟩ :=
    one_hot_encoding_columns [("color", [Cell.str "red"]), ("size", [Cell.nat 7])] ["color"]
      (by decide) (by decide)
      (by
        intro f hf v hin
        simp only [List.mem_singleton] at hf hin
        subst hf
        exact dummyName_ne_of_length_le "color" "color" v (by decide) hin)
  refine ⟨out, h1, ?_, ?_⟩
  · exact (h2 "color_red").2 (Or.inr ⟨"color", by decide, [Cell.str "red"], by decide,
      Cell.str "red", by decide, by decide⟩)
  · exact (h2 "size").2 (Or.inl ⟨⟨[Cell.nat 7], by decide⟩, by decide⟩)

theorem one_hot_encoding_columns_cex :
    getCol [("a_x", [Cell.str "y"]), ("a", [Cell.str "x"])] "a_x" = some [Cell.str "y"] ∧
    getCol [("a_x", [Cell.str "y"]), ("a", [Cell.str "x"])] "a" = some [Cell.str "x"] ∧
    dummyName "a" (Cell.str "x") = "a_x" ∧
    one_hot_encoding [("a_x", [Cell.str "y"]), ("a", [Cell.str "x"])] ["a_x", "a", "a_x"] =
      some [("a_x_y", [Cell.nat 1]), ("a_x_1", [Cell.nat 1])] ∧
    "a_x" ∉ ([("a_x_y", [Cell.nat 1]), ("a_x_1", [Cell.nat 1])] : DataFrame).map (fun c => c.1) := by
  decide

/-- Claim C2: whenever every column of the input table has `n` rows and the
encoding returns a table, every column of the returned table has `n` rows. -/
theorem one_hot_encoding_row_count (data out : DataFrame) (features : List String) (n : Nat)
    (hlen : ∀ c ∈ data, c.2.length = n)
    (h : one_hot_encoding data features = some out) :
    ∀ c ∈ out, c.2.length = n :=
  one_hot_encoding_length features data out n hlen h

theorem one_hot_encoding_row_count_witness :
    (("a_y", [Cell.nat 0, Cell.nat 1, Cell.nat 0]) : Column).2.length = 3 :=
  one_hot_encoding_row_count
    [("a", [Cell.str "x", Cell.str "y", Cell.str "x"]), ("b", [Cell.nat 1, Cell.nat 2, Cell.nat 3])]
    [("b", [Cell.nat 1, Cell.nat 2, Cell.nat 3]),
     ("a_y", [Cell.nat 0, Cell.nat 1, Cell.nat 0]),
     ("a_x", [Cell.nat 1, Cell.nat 0, Cell.nat 1])]
    ["a"] 3 (by decide) (by decide) ("a_y", [Cell.nat 0, Cell.nat 1, Cell.nat 0]) (by decide)

/-- Claim C3: whenever the encoding returns a table, every input column whose
name is not listed is in the output with its value list unchanged (hence with
its rows in the original order); and, under hygienic inputs, each indicator
column is the row-by-row image of the encoded input column, so encoded data
also keeps the row order. -/
theorem one_hot_encoding_frame (data : DataFrame) (features : List String) :
    (∀ out, one_hot_encoding data features = some out →
      ∀ p ∈ data, p.1 ∉ features → p ∈ out) ∧
    (features.Nodup →
      (∀ f ∈ features, (getCol data f).isSome) →
      (∀ f ∈ features, ∀ v : Cell, dummyName f v ∉ features) →
      ∃ out, one_hot_encoding data features = some out ∧
        ∀ f ∈ features, ∀ col, getCol data f = some col → ∀ v ∈ col.dedup,
          (dummyName f v, col.map (fun c => Cell.nat (if c = v then 1 else 0))) ∈ out) := by
  constructor
  · exact fun out h p hp hnp => one_hot_encoding_untouched features data out h p hp hnp
  · intro hnd hpres hfresh
    obtain ⟨out, hout, hmem⟩ := one_hot_mem_iff features data hnd hpres hfresh
    exact ⟨out, hout, fun f hf col hcol v hv =>
      (hmem _).2 (Or.inr ⟨f, hf, col, hcol, v, hv, rfl⟩)⟩

theorem one_hot_encoding_frame_witness :
    ("b", [Cell.nat 1, Cell.nat 2, Cell.nat 3]) ∈
      [("b", [Cell.nat 1, Cell.nat 2, Cell.nat 3]),
       ("a_y", [Cell.nat 0, Cell.nat 1, Cell.nat 0]),
       ("a_x", [Cell.nat 1, Cell.nat 0, Cell.nat 1])] :=
  (one_hot_encoding_frame
    [("a", [Cell.str "x", Cell.str "y", Cell.str "x"]), ("b", [Cell.nat 1, Cell.nat 2, Cell.nat 3])]
    ["a"]).1
    [("b", [Cell.nat 1, Cell.nat 2, Cell.nat 3]),
     ("a_y", [Cell.nat 0, Cell.nat 1, Cell.nat 0]),
     ("a_x", [Cell.nat 1, Cell.nat 0, Cell.nat 1])]
    (by decide) ("b", [Cell.nat 1, Cell.nat 2, Cell.nat 3]) (by decide) (by decide)

/-- Claim C4 (corrected): the claim states that the encoding fails whenever
some listed name is not a column of the input table, but a listed name that
is absent can still be supplied by an indicator column generated for an
earlier listed name, in which case the encoding succeeds; see the
counterexample.  Amended: the encoding fails whenever some listed name is
absent from the input table and is not expressible as a generated indicator
name of any listed column. -/
theorem one_hot_encoding_missing_error (data : DataFrame) (features : List String) (f : String)
    (hf : f ∈ features) (habs : getCol data f = none)
    (hnd : ∀ g ∈ features, ∀ v : Cell, dummyName g v ≠ f) :
    one_hot_encoding data features = none :=
  one_hot_encoding_missing features data f hf habs hnd

theorem one_hot_encoding_missing_error_witness :
    one_hot_encoding [("a", [Cell.str "x"])] ["a", "b"] = none :=
  one_hot_encoding_missing_error [("a", [Cell.str "x"])] ["a", "b"] "b"
    (by decide) (by decide)
    (by
      intro g hg v
      rcases List.mem_cons.1 hg with rfl | hg2
      · exact dummyName_ne_of_length_le "a" "b" v (by decide)
      · rcases List.mem_singleton.1 hg2 with rfl
        exact dummyName_ne_of_length_le "b" "b" v (by decide))

theorem one_hot_encoding_missing_error_cex :
    getCol [("a", [Cell.str "x"])] "a_x" = none ∧
    one_hot_encoding [("a", [Cell.str "x"])] ["a", "a_x"] = some [("a_x_1", [Cell.nat 1])] := by
  decide

/-- The fitted booster object, reduced to what `feature_importances_` reads:
the internal split-frequency dictionary returned by `get_fscore`, whose keys
are strings such as "f12" and whose values are split counts. -/
structure Booster where
  fscore : List (String × Int)

/-- Accessor `booster.get_fscore()`. -/
def Booster.get_fscore (b : Booster) : List (String × Int) := b.fscore

/-- The custom classifier: the declared feature count (`n_features`, stored by
`__init__`) and the underlying booster, which is `none` until `fit` has been
called (`self.booster()` raises on an unfitted model). -/
structure XGBFeatureSelection where
  n_features : Nat
  _Booster : Option Booster

/-- Method `self.booster()`: returns the fitted booster, failing when the
model has not been fitted. -/
def XGBFeatureSelection.booster (m : XGBFeatureSelection) : Option Booster := m._Booster

/-- One numpy element assignment `arr[idx] = v` with a machine-integer index:
a negative index addresses from the end of the array, and an index outside
the range from minus the length to the length minus one raises IndexError. -/
def npSetItem (arr : List Int) (idx : Int) (v : Int) : Option (List Int) :=
  if 0 ≤ idx ∧ idx < (arr.length : Int) then some (arr.set idx.toNat v)
  else if -(arr.length : Int) ≤ idx ∧ idx < 0 then some (arr.set ((arr.length : Int) + idx).toNat v)
  else none

/-- Decimal digit accumulation used to model Python `int`. -/
def parseDigits : List Char → Nat → Option Nat
  | [], acc => some acc
  | c :: rest, acc =>
      if '0' ≤ c ∧ c ≤ '9' then parseDigits rest (acc * 10 + (c.toNat - 48)) else none

/-- Model of Python `int(s)` over the character list of `s`: an optional
minus sign followed by at least one decimal digit; anything else raises.
(The leading-plus and surrounding-whitespace tolerance of Python `int` is
not exercised by fscore keys and is not modelled.) -/
def pyInt : List Char → Option Int
  | [] => none
  | '-' :: rest =>
      if rest.isEmpty then none else (parseDigits rest 0).map (fun n => -(n : Int))
  | cs => (parseDigits cs 0).map (fun n => (n : Int))

/-- One iteration of the importance loop: `importances[int(k[1:])] = v`,
where `k[1:]` is the character list of the key without its first character. -/
def importanceStep (importances : List Int) (kv : String × Int) : Option (List Int) :=
  (pyInt (kv.1.data.drop 1)).bind (fun idx => npSetItem importances idx kv.2)

/-- Property `feature_importances_`: read the fscore dictionary of the fitted
booster, allocate a zero vector of the declared length, and scatter every
recorded score at the index parsed from its key.  All failures (unfitted
model, unparsable key, out-of-range index) propagate. -/
def XGBFeatureSelection.feature_importances_ (m : XGBFeatureSelection) : Option (List Int) :=
  (m.booster).bind (fun booster =>
    let fscores := booster.get_fscore
    let importances := List.replicate m.n_features (0 : Int)
    fscores.foldlM importanceStep importances)

/-- A successful numpy assignment preserves the array length. -/
theorem npSetItem_length {arr arr' : List Int} {idx v : Int}
    (h : npSetItem arr idx v = some arr') : arr'.length = arr.length := by
  unfold npSetItem at h
  split at h
  · injection h with h; subst h; exact List.length_set ..
  · split at h
    · injection h with h; subst h; exact List.length_set ..
    · exact absurd h (by simp)

/-- A successful importance-loop step preserves the array length. -/
theorem importanceStep_length {arr arr' : List Int} {kv : String × Int}
    (h : importanceStep arr kv = some arr') : arr'.length = arr.length := by
  unfold importanceStep at h
  cases hp : pyInt (kv.1.data.drop 1) with
  | none => rw [hp] at h; exact absurd h (by simp)
  | some idx => rw [hp, Option.some_bind] at h; exact npSetItem_length h

/-- A nonnegative in-range assignment writes at the parsed position. -/
theorem npSetItem_nonneg (arr : List Int) (i : Nat) (v : Int) (hi : i < arr.length) :
    npSetItem arr (i : Int) v = some (arr.set i v) := by
  unfold npSetItem
  rw [if_pos (by omega)]
  simp

/-- Scatter loop, hygienic case: every key parses to a distinct nonnegative
in-range index; the loop succeeds and each final entry is the score recorded
for its position, or the initial entry when no score is recorded. -/
theorem foldlM_importanceStep_get (fs : List (String × Int)) : ∀ arr : List Int,
    (∀ kv ∈ fs, ∃ i : Nat, pyInt (kv.1.data.drop 1) = some (i : Int) ∧ i < arr.length) →
    (fs.map (fun kv => pyInt (kv.1.data.drop 1))).Nodup →
    ∃ arr', fs.foldlM importanceStep arr = some arr' ∧ arr'.length = arr.length ∧
      ∀ j : Nat, j < arr.length →
        arr'[j]? = (match fs.find? (fun kv => pyInt (kv.1.data.drop 1) == some (j : Int)) with
          | some kv => some kv.2
          | none => arr[j]?) := by
  induction fs with
  | nil =>
      intro arr _ _
      exact ⟨arr, rfl, rfl, fun j _ => by simp⟩
  | cons kv rest ih =>
      intro arr hidx hnd
      obtain ⟨i, hparse, hlt⟩ := hidx kv (List.mem_cons_self kv rest)
      have hstep : importanceStep arr kv = some (arr.set i kv.2) := by
        unfold importanceStep
        rw [hparse, Option.some_bind]
        exact npSetItem_nonneg arr i kv.2 hlt
      have hlen : (arr.set i kv.2).length = arr.length := List.length_set ..
      obtain ⟨arr', hfold, hlen', hget⟩ := ih (arr.set i kv.2)
        (fun kv' hkv' => by
          obtain ⟨i', h1, h2⟩ := hidx kv' (List.mem_cons_of_mem kv hkv')
          exact ⟨i', h1, by omega⟩)
        (List.nodup_cons.1 hnd).2
      refine ⟨arr', ?_, by omega, ?_⟩
      · rw [List.foldlM_cons, hstep]
        exact hfold
      · intro j hj
        by_cases hij : i = j
        · subst hij
          rw [List.find?_cons_of_pos _ (by simp only [beq_iff_eq]; exact hparse)]
          have hnone : rest.find? (fun kv' => pyInt (kv'.1.data.drop 1) == some (i : Int)) = none := by
            rw [List.find?_eq_none]
            intro kv' hkv' hp
            apply (List.nodup_cons.1 hnd).1
            have hp' : pyInt (kv'.1.data.drop 1) = some (i : Int) := by simpa using hp
            have hmem2 : some (i : Int) ∈ rest.map (fun kv'' => pyInt (kv''.1.data.drop 1)) :=
              List.mem_map.2 ⟨kv', hkv', hp'⟩
            rw [← hparse] at hmem2
            exact hmem2
          have := hget i (by omega)
          rw [hnone] at this
          rw [this, List.getElem?_set_self (by omega)]
        · rw [List.find?_cons_of_neg _ (by simp only [beq_iff_eq]; rw [hparse]; simp [hij])]
          have := hget j (by omega)
          rw [this]
          cases rest.find? (fun kv' => pyInt (kv'.1.data.drop 1) == some (j : Int)) with
          | some kv' => rfl
          | none => simp only [List.getElem?_set_ne hij]

/-- Claim C5: for a fitted model whose recorded keys parse to pairwise
distinct feature indices below the declared count, the accessor returns a
vector of exactly the declared length holding at position i the recorded
fscore of feature i and 0 where nothing is recorded; with an empty fscore
dictionary the result is the all-zeros vector. -/
theorem feature_importances_spec (m : XGBFeatureSelection) (b : Booster)
    (hb : m._Booster = some b)
    (hidx : ∀ kv ∈ b.fscore, ∃ i : Nat, pyInt (kv.1.data.drop 1) = some (i : Int) ∧ i < m.n_features)
    (hnd : (b.fscore.map (fun kv => pyInt (kv.1.data.drop 1))).Nodup) :
    ∃ arr, m.feature_importances_ = some arr ∧ arr.length = m.n_features ∧
      (∀ j : Nat, j < m.n_features →
        arr[j]? = (match b.fscore.find? (fun kv => pyInt (kv.1.data.drop 1) == some (j : Int)) with
          | some kv => some kv.2
          | none => some 0)) ∧
      (b.fscore = [] → arr = List.replicate m.n_features 0) := by
  have hrep : (List.replicate m.n_features (0 : Int)).length = m.n_features :=
    List.length_replicate ..
  obtain ⟨arr, hfold, hlen, hget⟩ :=
    foldlM_importanceStep_get b.fscore (List.replicate m.n_features 0)
      (fun kv hkv => by
        obtain ⟨i, h1, h2⟩ := hidx kv hkv
        exact ⟨i, h1, by omega⟩) hnd
  have hfi : m.feature_importances_ = b.fscore.foldlM importanceStep (List.replicate m.n_features 0) := by
    unfold XGBFeatureSelection.feature_importances_ XGBFeatureSelection.booster
    rw [hb, Option.some_bind]
    rfl
  refine ⟨arr, by rw [hfi]; exact hfold, by omega, ?_, ?_⟩
  · intro j hj
    have := hget j (by omega)
    rw [this, List.getElem?_replicate, if_pos (by omega)]
  · intro hemp
    rw [hemp] at hfold
    injection hfold with h
    exact h.symm

theorem feature_importances_spec_witness :
    ∃ arr, XGBFeatureSelection.feature_importances_ ⟨3, some ⟨[("f1", 5)]⟩⟩ = some arr ∧
      arr.length = 3 ∧ arr[1]? = some 5 ∧ arr[0]? = some 0 := by
  obtain ⟨arr, h1, h2, h3, _⟩ := feature_importances_spec ⟨3, some ⟨[("f1", 5)]⟩⟩ ⟨[("f1", 5)]⟩ rfl
    (by
      intro kv hkv
      rcases List.mem_singleton.1 hkv with rfl
      exact ⟨1, by decide, by decide⟩)
    (by decide)
  refine ⟨arr, h1, h2, ?_, ?_⟩
  · exact (h3 1 (by decide)).trans (by decide)
  · exact (h3 0 (by decide)).trans (by decide)

/-- Claim C6: the accessor requires a fitted model; on an unfitted model the
underlying booster lookup fails and no vector is returned. -/
theorem feature_importances_unfitted (m : XGBFeatureSelection)
    (h : m._Booster = none) : m.feature_importances_ = none := by
  unfold XGBFeatureSelection.feature_importances_ XGBFeatureSelection.booster
  rw [h]
  rfl

theorem feature_importances_unfitted_witness :
    XGBFeatureSelection.feature_importances_ ⟨4, none⟩ = none :=
  feature_importances_unfitted ⟨4, none⟩ rfl

/-- Scatter loop, totality: when every key parses to an index within the
numpy-valid range (from minus the length to the length minus one), the loop
succeeds and preserves the length. -/
theorem foldlM_importanceStep_total (fs : List (String × Int)) : ∀ arr : List Int,
    (∀ kv ∈ fs, ∃ idx : Int, pyInt (kv.1.data.drop 1) = some idx ∧
      -(arr.length : Int) ≤ idx ∧ idx < (arr.length : Int)) →
    ∃ arr', fs.foldlM importanceStep arr = some arr' ∧ arr'.length = arr.length := by
  induction fs with
  | nil => intro arr _; exact ⟨arr, rfl, rfl⟩
  | cons kv rest ih =>
      intro arr hidx
      obtain ⟨idx, hparse, h1, h2⟩ := hidx kv (List.mem_cons_self kv rest)
      obtain ⟨arr₁, hset⟩ : ∃ arr₁, npSetItem arr idx kv.2 = some arr₁ := by
        unfold npSetItem
        by_cases h0 : 0 ≤ idx
        · exact ⟨_, by rw [if_pos ⟨h0, h2⟩]⟩
        · exact ⟨_, by rw [if_neg (by omega), if_pos ⟨h1, by omega⟩]⟩
      have hlen1 : arr₁.length = arr.length := npSetItem_length hset
      obtain ⟨arr', hfold, hlen'⟩ := ih arr₁ (fun kv' hkv' => by
        obtain ⟨idx', ha, hb, hc⟩ := hidx kv' (List.mem_cons_of_mem kv hkv')
        exact ⟨idx', ha, by omega, by omega⟩)
      refine ⟨arr', ?_, by omega⟩
      rw [List.foldlM_cons]
      unfold importanceStep
      rw [hparse, Option.some_bind, hset]
      exact hfold

/-- Scatter loop, failure: whenever some key parses to an index at least the
array length, the loop raises. -/
theorem foldlM_importanceStep_oob (fs : List (String × Int)) : ∀ arr : List Int,
    (∃ kv ∈ fs, ∃ idx : Int, pyInt (kv.1.data.drop 1) = some idx ∧ (arr.length : Int) ≤ idx) →
    fs.foldlM importanceStep arr = none := by
  induction fs with
  | nil => intro arr h; exact absurd h (by simp)
  | cons kv rest ih =>
      intro arr h
      rw [List.foldlM_cons]
      rcases h with ⟨kv', hkv', idx, hparse, hge⟩
      rcases List.mem_cons.1 hkv' with rfl | hrest
      · have hbad : importanceStep arr kv' = none := by
          unfold importanceStep
          rw [hparse, Option.some_bind]
          unfold npSetItem
          rw [if_neg (by omega), if_neg (by omega)]
        rw [hbad]
        rfl
      · cases hstep : importanceStep arr kv with
        | none => rfl
        | some arr₁ =>
            have hlen1 : arr₁.length = arr.length := importanceStep_length hstep
            exact ih arr₁ ⟨kv', hrest, idx, hparse, by omega⟩

/-- Claim C9 (corrected): the claim asserts normal return whenever every
recorded index is below the declared count, but a parsed index may be
negative, and numpy rejects indices below minus the length, so a recorded
index such as -6 with 5 declared features is below the count yet raises; see
the counterexample.  Amended: when every recorded index lies in the
numpy-valid window (at least minus the declared count and strictly below it)
every write is in bounds and a vector of the declared length is returned,
and when some recorded index is at least the declared count the accessor
fails with an out-of-bounds error. -/
theorem feature_importances_bounds (m : XGBFeatureSelection) (b : Booster)
    (hb : m._Booster = some b) :
    ((∀ kv ∈ b.fscore, ∃ idx : Int, pyInt (kv.1.data.drop 1) = some idx ∧
        -(m.n_features : Int) ≤ idx ∧ idx < (m.n_features : Int)) →
      ∃ arr, m.feature_importances_ = some arr ∧ arr.length = m.n_features) ∧
    ((∃ kv ∈ b.fscore, ∃ idx : Int, pyInt (kv.1.data.drop 1) = some idx ∧
        (m.n_features : Int) ≤ idx) →
      m.feature_importances_ = none) := by
  have hfi : m.feature_importances_ =
      b.fscore.foldlM importanceStep (List.replicate m.n_features 0) := by
    unfold XGBFeatureSelection.feature_importances_ XGBFeatureSelection.booster
    rw [hb, Option.some_bind]
    rfl
  constructor
  · intro h
    obtain ⟨arr, hfold, hlen⟩ :=
      foldlM_importanceStep_total b.fscore (List.replicate m.n_features 0)
        (fun kv hkv => by
          obtain ⟨idx, h1, h2, h3⟩ := h kv hkv
          exact ⟨idx, h1, by simpa using h2, by simpa using h3⟩)
    exact ⟨arr, by rw [hfi]; exact hfold, by simpa using hlen⟩
  · intro h
    rw [hfi]
    apply foldlM_importanceStep_oob
    obtain ⟨kv, hkv, idx, h1, h2⟩ := h
    exact ⟨kv, hkv, idx, h1, by simpa using h2⟩

theorem feature_importances_bounds_witness :
    (∃ arr, XGBFeatureSelection.feature_importances_ ⟨2, some ⟨[("f0", 3), ("f-1", 4)]⟩⟩ =
        some arr ∧ arr.length = 2) ∧
    XGBFeatureSelection.feature_importances_ ⟨2, some ⟨[("f2", 3)]⟩⟩ = none := by
  constructor
  · exact (feature_importances_bounds ⟨2, some ⟨[("f0", 3), ("f-1", 4)]⟩⟩
      ⟨[("f0", 3), ("f-1", 4)]⟩ rfl).1
      (by
        intro kv hkv
        rcases List.mem_cons.1 hkv with rfl | hkv2
        · exact ⟨0, by decide, by decide, by decide⟩
        · rcases List.mem_singleton.1 hkv2 with rfl
          exact ⟨-1, by decide, by decide, by decide⟩)
  · exact (feature_importances_bounds ⟨2, some ⟨[("f2", 3)]⟩⟩ ⟨[("f2", 3)]⟩ rfl).2
      ⟨("f2", 3), by decide, 2, by decide, by decide⟩

theorem feature_importances_bounds_cex :
    pyInt ("f-6".data.drop 1) = some (-6) ∧ ((-6 : Int) < (5 : Int)) ∧
    XGBFeatureSelection.feature_importances_ ⟨5, some ⟨[("f-6", 3)]⟩⟩ = none := by
  decide

/-- ASCII model of the Python character test `c.isalpha()`. -/
def pyIsAlpha (c : Char) : Bool :=
  decide ('A' ≤ c ∧ c ≤ 'Z') || decide ('a' ≤ c ∧ c ≤ 'z')

/-- ASCII model of the Python character test `c.isdigit()`. -/
def pyIsDigit (c : Char) : Bool :=
  decide ('0' ≤ c ∧ c ≤ '9')

/-- ASCII model of Python `str.lower` on one character. -/
def pyToLower (c : Char) : Char :=
  if 'A' ≤ c ∧ c ≤ 'Z' then Char.ofNat (c.toNat + 32) else c

/-- Embedding of `_sanitize_holiday_name`: keep only alphanumeric and space
characters, lowercase, and replace each space by an underscore.  The Python
join, lower and replace steps are fused into one character-wise pass, which
is faithful because lowering fixes spaces and digits. -/
def _sanitize_holiday_name (name : String) : String :=
  let new_name := name.data.filter (fun c => pyIsAlpha c || pyIsDigit c || c == ' ')
  String.mk (new_name.map (fun c => if pyToLower c = ' ' then '_' else pyToLower c))

/-- Conversion of a valid code point round-trips through `Char.ofNat`. -/
theorem toNat_ofNat_lt (n : Nat) (h : n < 55296) : (Char.ofNat n).toNat = n := by
  have hv : n.isValidChar := Or.inl h
  simp [Char.ofNat, hv, Char.ofNatAux, Char.toNat, UInt32.toNat]

/-- The order on characters is the order of their code points. -/
theorem char_le_iff (c d : Char) : c ≤ d ↔ c.toNat ≤ d.toNat :=
  ⟨fun h => h, fun h => h⟩

/-- Claim C7: every character of a sanitized holiday name is a lowercase
ASCII letter, a decimal digit, or an underscore; the sanitizer removes every
character that is neither alphanumeric nor a space, lowercases the kept
letters, and turns each space into an underscore. -/
theorem _sanitize_holiday_name_chars (name : String) (c : Char)
    (hc : c ∈ (_sanitize_holiday_name name).data) :
    ('a' ≤ c ∧ c ≤ 'z') ∨ ('0' ≤ c ∧ c ≤ '9') ∨ c = '_' := by
  unfold _sanitize_holiday_name at hc
  rcases List.mem_map.1 hc with ⟨k, hk, rfl⟩
  have hkeep : (pyIsAlpha k || pyIsDigit k || k == ' ') = true := (List.mem_filter.1 hk).2
  simp only [pyIsAlpha, pyIsDigit, Bool.or_eq_true, decide_eq_true_eq, beq_iff_eq] at hkeep
  have hA : ('A' : Char).toNat = 65 := rfl
  have hZ : ('Z' : Char).toNat = 90 := rfl
  have ha : ('a' : Char).toNat = 97 := rfl
  have hz : ('z' : Char).toNat = 122 := rfl
  have h0 : ('0' : Char).toNat = 48 := rfl
  have h9 : ('9' : Char).toNat = 57 := rfl
  have hsp : (' ' : Char).toNat = 32 := rfl
  rcases hkeep with ((hup | hlo) | hdig) | hspace
  · have h1 : ('A' : Char).toNat ≤ k.toNat := (char_le_iff _ _).1 hup.1
    have h2 : k.toNat ≤ ('Z' : Char).toNat := (char_le_iff _ _).1 hup.2
    have hlow : pyToLower k = Char.ofNat (k.toNat + 32) := by
      unfold pyToLower
      rw [if_pos hup]
    have hofn : (Char.ofNat (k.toNat + 32)).toNat = k.toNat + 32 :=
      toNat_ofNat_lt _ (by omega)
    have hnsp : ¬(pyToLower k = ' ') := by
      rw [hlow]
      intro he
      have h3 := congrArg Char.toNat he
      rw [hofn, hsp] at h3
      omega
    rw [if_neg hnsp, hlow]
    refine Or.inl ⟨?_, ?_⟩
    · rw [char_le_iff, hofn, ha]
      omega
    · rw [char_le_iff, hofn, hz]
      omega
  · have h1 : ('a' : Char).toNat ≤ k.toNat := (char_le_iff _ _).1 hlo.1
    have hlow : pyToLower k = k := by
      unfold pyToLower
      rw [if_neg]
      intro hcon
      have h2 := (char_le_iff _ _).1 hcon.2
      omega
    have hnsp : ¬(pyToLower k = ' ') := by
      rw [hlow]
      intro he
      have h3 := congrArg Char.toNat he
      rw [hsp] at h3
      omega
    rw [if_neg hnsp, hlow]
    exact Or.inl hlo
  · have h1 : ('0' : Char).toNat ≤ k.toNat := (char_le_iff _ _).1 hdig.1
    have h2 : k.toNat ≤ ('9' : Char).toNat := (char_le_iff _ _).1 hdig.2
    have hlow : pyToLower k = k := by
      unfold pyToLower
      rw [if_neg]
      intro hcon
      have h3 := (char_le_iff _ _).1 hcon.1
      omega
    have hnsp : ¬(pyToLower k = ' ') := by
      rw [hlow]
      intro he
      have h3 := congrArg Char.toNat he
      rw [hsp] at h3
      omega
    rw [if_neg hnsp, hlow]
    exact Or.inr (Or.inl hdig)
  · subst hspace
    have hlow : pyToLower ' ' = ' ' := by
      unfold pyToLower
      rw [if_neg]
      intro hcon
      have h3 := (char_le_iff _ _).1 hcon.1
      omega
    rw [if_pos hlow]
    exact Or.inr (Or.inr rfl)

theorem _sanitize_holiday_name_chars_witness :
    (('a' ≤ 'n' ∧ 'n' ≤ 'z') ∨ ('0' ≤ 'n' ∧ 'n' ≤ '9') ∨ 'n' = '_') ∧
    _sanitize_holiday_name "New Year\x27s Day" = "new_years_day" :=
  ⟨_sanitize_holiday_name_chars "New Year\x27s Day" 'n' (by decide), by decide⟩

/-- Leap-year rule of the Python `datetime` module. -/
def isLeap (y : Nat) : Bool := y % 4 == 0 && (y % 100 != 0 || y % 400 == 0)

/-- Day counts of the months of a non-leap year (index: month minus one). -/
def daysInMonthTable : List Nat := [31, 28, 31, 30, 31, 30, 31, 31, 30, 31, 30, 31]

/-- Cumulative day counts before each month of a non-leap year. -/
def daysBeforeMonthTable : List Nat := [0, 31, 59, 90, 120, 151, 181, 212, 243, 273, 304, 334]

/-- Number of days of a month, leap Februaries included. -/
def daysInMonth (y m : Nat) : Nat :=
  if m == 2 && isLeap y then 29 else daysInMonthTable.getD (m - 1) 0

/-- Number of days of a year before the first of a month. -/
def daysBeforeMonth (y m : Nat) : Nat :=
  daysBeforeMonthTable.getD (m - 1) 0 + (if decide (2 < m) && isLeap y then 1 else 0)

/-- Number of days before January 1 of a year, counted from the epoch of the
proleptic Gregorian calendar (the formula of Python `datetime`). -/
def daysBeforeYear (y : Nat) : Nat :=
  (y - 1) * 365 + (y - 1) / 4 - (y - 1) / 100 + (y - 1) / 400

/-- A calendar date, as the year/month/day triple held by Python
`datetime.date` (whose constructor validates the fields). -/
structure date where
  year : Nat
  month : Nat
  day : Nat
deriving DecidableEq

/-- Ordinal of a date (Python `date.toordinal`): January 1 of year 1 is 1. -/
def toordinal (dt : date) : Nat :=
  daysBeforeYear dt.year + daysBeforeMonth dt.year dt.month + dt.day

/-- Field validation performed by the Python `date` constructor. -/
def validDate (dt : date) : Prop :=
  1 ≤ dt.year ∧ dt.year ≤ 9999 ∧ 1 ≤ dt.month ∧ dt.month ≤ 12 ∧
    1 ≤ dt.day ∧ dt.day ≤ daysInMonth dt.year dt.month

instance (dt : date) : Decidable (validDate dt) := by
  unfold validDate
  infer_instance

/-- Python `date(y, m, d)`: fails with ValueError unless the fields form a
valid date of years 1..9999. -/
def date.mk? (y m d : Int) : Option date :=
  if 1 ≤ y ∧ y ≤ 9999 ∧ 1 ≤ m ∧ m ≤ 12 ∧ 1 ≤ d ∧ d ≤ (daysInMonth y.toNat m.toNat : Int)
  then some ⟨y.toNat, m.toNat, d.toNat⟩ else none

/-- Python date subtraction `(a - b).days`: the signed ordinal difference. -/
def dateSubDays (a b : date) : Int := (toordinal a : Int) - (toordinal b : Int)

/-- Python date comparison: lexicographic on (year, month, day). -/
def dateLt (a b : date) : Prop :=
  a.year < b.year ∨
    (a.year = b.year ∧ (a.month < b.month ∨ (a.month = b.month ∧ a.day < b.day)))

theorem isLeap_iff (y : Nat) : isLeap y = true ↔ (y % 4 = 0 ∧ (y % 100 ≠ 0 ∨ y % 400 = 0)) := by
  unfold isLeap
  simp

set_option maxHeartbeats 1000000 in
/-- One-year step of the cumulative day count. -/
theorem daysBeforeYear_succ (y : Nat) (hy : 1 ≤ y) :
    daysBeforeYear (y + 1) = daysBeforeYear y + 365 + (if isLeap y then 1 else 0) := by
  unfold daysBeforeYear
  have h1 : y + 1 - 1 = y := by omega
  rw [h1]
  by_cases hL : isLeap y = true
  · rw [if_pos hL]
    rw [isLeap_iff] at hL
    rcases hL with ⟨h4, h100 | h400⟩
    · omega
    · by_cases h100 : y % 100 = 0 <;> omega
  · rw [if_neg hL]
    have hL' : ¬(y % 4 = 0 ∧ (y % 100 ≠ 0 ∨ y % 400 = 0)) := fun hcon => hL ((isLeap_iff y).2 hcon)
    by_cases h4 : y % 4 = 0
    · have h100 : y % 100 = 0 := by
        by_contra hc
        exact hL' ⟨h4, Or.inl hc⟩
      have h400 : y % 400 ≠ 0 := fun hc => hL' ⟨h4, Or.inr hc⟩
      omega
    · omega

/-- The cumulative day count grows with the year. -/
theorem daysBeforeYear_le (y : Nat) : ∀ y' : Nat, y ≤ y' → daysBeforeYear y ≤ daysBeforeYear y' := by
  intro y'
  induction y' with
  | zero =>
      intro h
      have : y = 0 := by omega
      subst this
      exact le_refl _
  | succ n ih =>
      intro h
      rcases Nat.lt_or_ge y (n + 1) with hlt | hge
      · refine le_trans (ih (by omega)) ?_
        by_cases hn : 1 ≤ n
        · rw [daysBeforeYear_succ n hn]
          omega
        · have hn0 : n = 0 := by omega
          subst hn0
          decide
      · have hy : y = n + 1 := by omega
        subst hy
        exact le_refl _

/-- Strict jump of the cumulative day count into any later year. -/
theorem daysBeforeYear_succ_le (y y' : Nat) (hy : 1 ≤ y) (h : y < y') :
    daysBeforeYear y + 365 + (if isLeap y then 1 else 0) ≤ daysBeforeYear y' := by
  rw [← daysBeforeYear_succ y hy]
  exact daysBeforeYear_le (y + 1) y' (by omega)

set_option maxHeartbeats 1000000 in
/-- Crossing a month boundary advances the day-of-year count past every day
of the earlier month. -/
theorem daysBeforeMonth_boundary (y m m' : Nat) (h1 : 1 ≤ m) (h2 : m < m') (h3 : m' ≤ 12) :
    daysBeforeMonth y m + daysInMonth y m ≤ daysBeforeMonth y m' := by
  have hm11 : m ≤ 11 := by omega
  unfold daysBeforeMonth daysInMonth
  cases hL : isLeap y
  · simp only [hL, Bool.and_false, if_false]
    interval_cases m <;> interval_cases m' <;> decide
  · simp only [hL, Bool.and_true]
    interval_cases m <;> interval_cases m' <;> decide

/-- December bound: the day-of-year count of a valid date stays within the
year length. -/
theorem toordinal_le_year_end (dt : date) (hv : validDate dt) :
    toordinal dt ≤ daysBeforeYear dt.year + 365 + (if isLeap dt.year then 1 else 0) := by
  obtain ⟨hy1, hy2, hm1, hm2, hd1, hd2⟩ := hv
  have hdbm12 : daysBeforeMonth dt.year 12 = 334 + (if isLeap dt.year then 1 else 0) := by
    unfold daysBeforeMonth
    cases hL : isLeap dt.year <;> decide
  unfold toordinal
  by_cases hm : dt.month = 12
  · have hdim : daysInMonth dt.year 12 = 31 := by
      unfold daysInMonth
      cases hL : isLeap dt.year <;> decide
    rw [hm] at hd2
    rw [hdim] at hd2
    rw [hm, hdbm12]
    omega
  · have hb := daysBeforeMonth_boundary dt.year dt.month 12 hm1 (by omega) (by omega)
    rw [hdbm12] at hb
    omega

/-- Strict monotonicity of the date ordinal with respect to the Python date
order, on valid dates. -/
theorem toordinal_lt_of_dateLt (a b : date) (ha : validDate a) (hb : validDate b)
    (h : dateLt a b) : toordinal a < toordinal b := by
  rcases h with hy | ⟨hy, hm | ⟨hm, hd⟩⟩
  · have hub := toordinal_le_year_end a ha
    have hstep := daysBeforeYear_succ_le a.year b.year ha.1 hy
    have hb5 : 1 ≤ b.day := hb.2.2.2.2.1
    unfold toordinal at hub ⊢
    omega
  · have ha6 : a.day ≤ daysInMonth a.year a.month := ha.2.2.2.2.2
    have hb5 : 1 ≤ b.day := hb.2.2.2.2.1
    have hbd := daysBeforeMonth_boundary a.year a.month b.month ha.2.2.1 hm hb.2.2.2.1
    unfold toordinal
    rw [← hy]
    omega
  · unfold toordinal
    rw [← hy, ← hm]
    omega

theorem dateLt_trichotomy (a b : date) : dateLt a b ∨ a = b ∨ dateLt b a := by
  obtain ⟨y1, m1, d1⟩ := a
  obtain ⟨y2, m2, d2⟩ := b
  unfold dateLt
  simp only [date.mk.injEq]
  omega

/-- On valid dates, the Python date order coincides with the ordinal order. -/
theorem dateLt_iff_toordinal_lt (a b : date) (ha : validDate a) (hb : validDate b) :
    dateLt a b ↔ toordinal a < toordinal b := by
  constructor
  · exact toordinal_lt_of_dateLt a b ha hb
  · intro h
    rcases dateLt_trichotomy a b with h1 | h1 | h1
    · exact h1
    · subst h1
      omega
    · exact absurd (toordinal_lt_of_dateLt b a hb ha h1) (by omega)

/-- Python `date.weekday()` of the given civil date: 0 is Monday. -/
def weekday (y m d : Nat) : Nat := (toordinal ⟨y, m, d⟩ + 6) % 7

/-- Day of month of the n-th occurrence (n from 1) of a weekday in a month. -/
def nthWeekday (y m w n : Nat) : Nat := 1 + (w + 7 - weekday y m 1) % 7 + 7 * (n - 1)

/-- Day of month of the last occurrence of a weekday in a month. -/
def lastWeekday (y m w : Nat) : Nat :=
  daysInMonth y m - (weekday y m (daysInMonth y m) + 7 - w) % 7

/-- Modelled from the spec: the third-party holiday calendar
`holidays.US(years=y)` called by `process_holidays` is not part of this
repository; the spec describes it as a fixed national holiday calendar
enumerated for the given year.  It is modelled as the ten US federal
holidays on their nominal dates (fixed dates plus the weekday-rule
holidays), without observed-day shifts. -/
def holidaysUS (y : Nat) : List (date × String) :=
  [ (⟨y, 1, 1⟩, "New Year\x27s Day"),
    (⟨y, 1, nthWeekday y 1 0 3⟩, "Martin Luther King Jr. Day"),
    (⟨y, 2, nthWeekday y 2 0 3⟩, "Washington\x27s Birthday"),
    (⟨y, 5, lastWeekday y 5 0⟩, "Memorial Day"),
    (⟨y, 7, 4⟩, "Independence Day"),
    (⟨y, 9, nthWeekday y 9 0 1⟩, "Labor Day"),
    (⟨y, 10, nthWeekday y 10 0 2⟩, "Columbus Day"),
    (⟨y, 11, 11⟩, "Veterans Day"),
    (⟨y, 11, nthWeekday y 11 3 4⟩, "Thanksgiving"),
    (⟨y, 12, 25⟩, "Christmas Day") ]

/-- A single user record: named integer fields. -/
abbrev Record := List (String × Int)

/-- Field access `df[name]` on a record. -/
def getField (df : Record) (k : String) : Option Int :=
  (df.find? (fun p => p.1 == k)).map (·.2)

/-- Column assignment `df[name] = v` on a record: overwrite the field when it
is present, append it at the end otherwise. -/
def setCol (df : Record) (k : String) (v : Int) : Record :=
  if df.any (fun p => p.1 == k) then df.map (fun p => if p.1 = k then (p.1, v) else p)
  else df ++ [(k, v)]

/-- The holiday loop of `process_holidays`: store the signed day distance of
every calendar entry under the sanitized holiday name. -/
def holidayLoop (user_date : date) (df : Record) : List (date × String) → Record
  | [] => df
  | hn :: rest =>
      holidayLoop user_date
        (setCol df ("days_to_" ++ _sanitize_holiday_name hn.2) (dateSubDays hn.1 user_date)) rest

/-- Embedding of `process_holidays`: read the year/month/day fields (a
KeyError when absent), build the user date (a ValueError when invalid),
enumerate the holiday calendar of that year, and run the holiday loop. -/
def process_holidays (df : Record) : Option Record := do
  let y ← getField df "year_account_created"
  let mo ← getField df "month_account_created"
  let d ← getField df "day_account_created"
  let user_date ← date.mk? y mo d
  let holidays_dates := holidaysUS y.toNat
  some (holidayLoop user_date df holidays_dates)

/-- Updating a present field stores the new value. -/
theorem getField_update_self (df : Record) (k : String) (v : Int) :
    df.any (fun p => p.1 == k) = true →
    getField (df.map (fun p => if p.1 = k then (p.1, v) else p)) k = some v := by
  induction df with
  | nil => intro h; exact absurd h (by simp)
  | cons p rest ih =>
      intro h
      by_cases hp : p.1 = k
      · unfold getField
        rw [List.map_cons, if_pos hp, List.find?_cons_of_pos _ (by simp [hp])]
        rfl
      · unfold getField at ih ⊢
        rw [List.map_cons, if_neg hp, List.find?_cons_of_neg _ (by simp [hp])]
        apply ih
        rw [List.any_cons] at h
        simpa [hp] using h

/-- Updating a field leaves the other fields unchanged. -/
theorem getField_update_ne (df : Record) (k k' : String) (v : Int) (h : k' ≠ k) :
    getField (df.map (fun p => if p.1 = k then (p.1, v) else p)) k' = getField df k' := by
  induction df with
  | nil => rfl
  | cons p rest ih =>
      unfold getField at ih ⊢
      rw [List.map_cons]
      by_cases hp : p.1 = k
      · rw [if_pos hp, List.find?_cons_of_neg _ (by simp [hp, Ne.symm h]),
          List.find?_cons_of_neg _ (by simp [hp, Ne.symm h])]
        exact ih
      · rw [if_neg hp]
        by_cases hp' : p.1 = k'
        · rw [List.find?_cons_of_pos _ (by simp [hp']), List.find?_cons_of_pos _ (by simp [hp'])]
        · rw [List.find?_cons_of_neg _ (by simp [hp']), List.find?_cons_of_neg _ (by simp [hp'])]
          exact ih

/-- Appending a fresh field stores its value. -/
theorem getField_append_self (df : Record) (k : String) (v : Int)
    (h : df.any (fun p => p.1 == k) = false) :
    getField (df ++ [(k, v)]) k = some v := by
  unfold getField
  rw [List.find?_append, List.find?_eq_none.2, List.find?_cons_of_pos _ (by simp)]
  · rfl
  · intro p hp
    simp only [beq_iff_eq]
    intro he
    rw [List.any_eq_false] at h
    exact (h p hp) (by simp [he])

/-- Appending one field leaves the other fields unchanged. -/
theorem getField_append_ne (df : Record) (k k' : String) (v : Int) (h : k' ≠ k) :
    getField (df ++ [(k, v)]) k' = getField df k' := by
  unfold getField
  rw [List.find?_append]
  cases hf : df.find? (fun p => p.1 == k') with
  | some p => rfl
  | none =>
      rw [List.find?_cons_of_neg _ (by simp [Ne.symm h])]
      rfl

/-- Setting a field stores its value. -/
theorem getField_setCol_self (df : Record) (k : String) (v : Int) :
    getField (setCol df k v) k = some v := by
  unfold setCol
  by_cases h : df.any (fun p => p.1 == k) = true
  · rw [if_pos h]
    exact getField_update_self df k v h
  · rw [if_neg h]
    exact getField_append_self df k v (by revert h; cases df.any (fun p => p.1 == k) <;> simp)

/-- Setting a field leaves the other fields unchanged. -/
theorem getField_setCol_ne (df : Record) (k k' : String) (v : Int) (h : k' ≠ k) :
    getField (setCol df k v) k' = getField df k' := by
  unfold setCol
  split
  · exact getField_update_ne df k k' v h
  · exact getField_append_ne df k k' v h

/-- Name presence is invariant under updating any field in place. -/
theorem any_update (df : Record) (k k' : String) (v : Int) :
    (df.map (fun p => if p.1 = k then (p.1, v) else p)).any (fun p => p.1 == k') =
      df.any (fun p => p.1 == k') := by
  induction df with
  | nil => rfl
  | cons p rest ih =>
      rw [List.map_cons, List.any_cons, List.any_cons, ih]
      by_cases hp : p.1 = k
      · rw [if_pos hp]
      · rw [if_neg hp]

/-- Setting one field does not create any other field. -/
theorem any_setCol_ne (df : Record) (k k' : String) (v : Int) (h : k' ≠ k) :
    (setCol df k v).any (fun p => p.1 == k') = df.any (fun p => p.1 == k') := by
  unfold setCol
  split
  · exact any_update df k k' v
  · rw [List.any_append]
    simp [Ne.symm h]

/-- Length of a record after a field assignment. -/
theorem length_setCol (df : Record) (k : String) (v : Int) :
    (setCol df k v).length =
      df.length + (if df.any (fun p => p.1 == k) then 0 else 1) := by
  unfold setCol
  split
  · rw [List.length_map]
    simp_all
  · rw [List.length_append]
    simp_all

/-- The holiday loop does not touch fields outside its column names. -/
theorem holidayLoop_getField_other (u : date) (hs : List (date × String)) :
    ∀ (df : Record) (k : String),
    (∀ hn ∈ hs, "days_to_" ++ _sanitize_holiday_name hn.2 ≠ k) →
    getField (holidayLoop u df hs) k = getField df k := by
  induction hs with
  | nil => intro df k _; rfl
  | cons hn rest ih =>
      intro df k h
      unfold holidayLoop
      rw [ih _ k (fun hn' hmem => h hn' (List.mem_cons_of_mem hn hmem))]
      exact getField_setCol_ne df _ k _ (fun he => h hn (List.mem_cons_self hn rest) he.symm)

/-- Each holiday writes its signed day distance under its own column name;
with pairwise distinct sanitized names every written value survives. -/
theorem holidayLoop_getField_mem (u : date) (hs : List (date × String)) :
    ∀ df : Record,
    (hs.map (fun hn => "days_to_" ++ _sanitize_holiday_name hn.2)).Nodup →
    ∀ hn ∈ hs,
      getField (holidayLoop u df hs) ("days_to_" ++ _sanitize_holiday_name hn.2) =
        some (dateSubDays hn.1 u) := by
  induction hs with
  | nil => intro df _ hn hmem; exact absurd hmem (by simp)
  | cons h0 rest ih =>
      intro df hnd hn hmem
      have hnd1 := (List.nodup_cons.1 hnd).1
      have hnd2 := (List.nodup_cons.1 hnd).2
      rcases List.mem_cons.1 hmem with rfl | hmem2
      · unfold holidayLoop
        rw [holidayLoop_getField_other u rest _ _ ?hother]
        · exact getField_setCol_self df _ _
        case hother =>
          intro hn' hmem' he
          exact hnd1 (List.mem_map.2 ⟨hn', hmem', he⟩)
      · unfold holidayLoop
        exact ih _ hnd2 hn hmem2

/-- The holiday loop appends exactly one fresh column per calendar entry. -/
theorem holidayLoop_length (u : date) (hs : List (date × String)) :
    ∀ df : Record,
    (∀ hn ∈ hs, df.any (fun p => p.1 == "days_to_" ++ _sanitize_holiday_name hn.2) = false) →
    (hs.map (fun hn => "days_to_" ++ _sanitize_holiday_name hn.2)).Nodup →
    (holidayLoop u df hs).length = df.length + hs.length := by
  induction hs with
  | nil => intro df _ _; rfl
  | cons h0 rest ih =>
      intro df hfresh hnd
      have hnd1 := (List.nodup_cons.1 hnd).1
      have hnd2 := (List.nodup_cons.1 hnd).2
      unfold holidayLoop
      rw [ih _ ?hfresh2 hnd2]
      · rw [length_setCol, if_neg]
        · simp [Nat.add_assoc, Nat.add_comm 1]
        · rw [hfresh h0 (List.mem_cons_self h0 rest)]
          simp
      case hfresh2 =>
        intro hn hmem
        rw [any_setCol_ne]
        · exact hfresh hn (List.mem_cons_of_mem h0 hmem)
        · intro he
          exact hnd1 (List.mem_map.2 ⟨hn, hmem, he⟩)

/-- The sanitized column names of the modelled calendar, one per holiday. -/
theorem holidaysUS_names (y : Nat) :
    (holidaysUS y).map (fun hn => "days_to_" ++ _sanitize_holiday_name hn.2) =
      ["days_to_new_years_day", "days_to_martin_luther_king_jr_day",
       "days_to_washingtons_birthday", "days_to_memorial_day",
       "days_to_independence_day", "days_to_labor_day", "days_to_columbus_day",
       "days_to_veterans_day", "days_to_thanksgiving", "days_to_christmas_day"] := rfl

/-- The sanitized column names of the modelled calendar are pairwise
distinct. -/
theorem holidaysUS_names_nodup (y : Nat) :
    ((holidaysUS y).map (fun hn => "days_to_" ++ _sanitize_holiday_name hn.2)).Nodup := by
  rw [holidaysUS_names]
  decide

/-- Month lengths used by the modelled calendar entries. -/
theorem daysInMonth_facts (y : Nat) :
    daysInMonth y 1 = 31 ∧ 28 ≤ daysInMonth y 2 ∧ daysInMonth y 5 = 31 ∧
    daysInMonth y 7 = 31 ∧ daysInMonth y 9 = 30 ∧ daysInMonth y 10 = 31 ∧
    daysInMonth y 11 = 30 ∧ daysInMonth y 12 = 31 := by
  unfold daysInMonth
  cases hL : isLeap y <;> decide

/-- The n-th weekday of a month falls in the n-th seven-day window. -/
theorem nthWeekday_bounds (y m w n : Nat) (hn : 1 ≤ n) :
    7 * n - 6 ≤ nthWeekday y m w n ∧ nthWeekday y m w n ≤ 7 * n := by
  unfold nthWeekday
  have h7 : (w + 7 - weekday y m 1) % 7 < 7 := Nat.mod_lt _ (by omega)
  omega

/-- The last weekday of a month falls in its final seven-day window. -/
theorem lastWeekday_bounds (y m w : Nat) (h : 7 ≤ daysInMonth y m) :
    daysInMonth y m - 6 ≤ lastWeekday y m w ∧ lastWeekday y m w ≤ daysInMonth y m := by
  unfold lastWeekday
  have h7 : (weekday y m (daysInMonth y m) + 7 - w) % 7 < 7 := Nat.mod_lt _ (by omega)
  omega

/-- Every entry of the modelled calendar is a valid date of its year. -/
theorem holidaysUS_valid (y : Nat) (h1 : 1 ≤ y) (h9 : y ≤ 9999) :
    ∀ hn ∈ holidaysUS y, validDate hn.1 := by
  have hf := daysInMonth_facts y
  intro hn hmem
  have hmlk := nthWeekday_bounds y 1 0 3 (by omega)
  have hwas := nthWeekday_bounds y 2 0 3 (by omega)
  have hmem5 := lastWeekday_bounds y 5 0 (by omega)
  have hlab := nthWeekday_bounds y 9 0 1 (by omega)
  have hcol := nthWeekday_bounds y 10 0 2 (by omega)
  have htha := nthWeekday_bounds y 11 3 4 (by omega)
  simp only [holidaysUS, List.mem_cons, List.not_mem_nil, or_false] at hmem
  rcases hmem with rfl | rfl | rfl | rfl | rfl | rfl | rfl | rfl | rfl | rfl <;>
    (unfold validDate; dsimp only) <;>
    refine ⟨h1, h9, by omega, by omega, by omega, by omega⟩

/-- Destructing a successful Python date construction. -/
theorem date_mk?_some {y m d : Int} {u : date} (h : date.mk? y m d = some u) :
    validDate u ∧ u.year = y.toNat ∧ u = ⟨y.toNat, m.toNat, d.toNat⟩ := by
  unfold date.mk? at h
  split at h
  case isTrue hc =>
    injection h with h
    subst h
    obtain ⟨c1, c2, c3, c4, c5, c6⟩ := hc
    refine ⟨⟨?_, ?_, ?_, ?_, ?_, ?_⟩, rfl, rfl⟩ <;> dsimp only <;> omega
  case isFalse => exact absurd h (by simp)

/-- Claim C8: for a record dated 2015-01-01 the generated New Year column
holds 0; and for every processable record, the holiday loop adds exactly one
new column per calendar entry of the record year, provided none of the
generated column names is already a field of the record. -/
theorem process_holidays_spec :
    ((process_holidays
        [("year_account_created", 2015), ("month_account_created", 1),
         ("day_account_created", 1)]).bind
      (fun out => getField out "days_to_new_years_day") = some 0) ∧
    (∀ (df : Record) (y mo d : Int) (user : date),
      getField df "year_account_created" = some y →
      getField df "month_account_created" = some mo →
      getField df "day_account_created" = some d →
      date.mk? y mo d = some user →
      (∀ hn ∈ holidaysUS y.toNat,
        df.any (fun p => p.1 == "days_to_" ++ _sanitize_holiday_name hn.2) = false) →
      ∃ out, process_holidays df = some out ∧
        out.length = df.length + (holidaysUS y.toNat).length) := by
  constructor
  · decide
  · intro df y mo d user hy hm hd hmk hfresh
    refine ⟨holidayLoop user df (holidaysUS y.toNat), ?_, ?_⟩
    · unfold process_holidays
      rw [hy, hm, hd]
      show (date.mk? y mo d).bind
          (fun user_date => some (holidayLoop user_date df (holidaysUS y.toNat))) =
        some (holidayLoop user df (holidaysUS y.toNat))
      rw [hmk]
      rfl
    · exact holidayLoop_length user (holidaysUS y.toNat) df hfresh
        (holidaysUS_names_nodup y.toNat)

theorem process_holidays_spec_witness :
    ∃ out,
      process_holidays
        [("year_account_created", 2015), ("month_account_created", 1),
         ("day_account_created", 1)] = some out ∧
      out.length = 3 + (holidaysUS 2015).length := by
  obtain ⟨out, h1, h2⟩ := process_holidays_spec.2
    [("year_account_created", 2015), ("month_account_created", 1), ("day_account_created", 1)]
    2015 1 1 ⟨2015, 1, 1⟩ (by decide) (by decide) (by decide) (by decide) (by decide)
  exact ⟨out, h1, h2⟩

/-- Claim C10: for every processable record and every holiday of that record
year, the stored value is exactly the signed ordinal difference between the
holiday date and the record date, positive exactly when the holiday falls
strictly after the record date, negative exactly when strictly before, and
zero exactly when the two dates coincide. -/
theorem process_holidays_distance (df : Record) (y mo d : Int) (user : date)
    (hy : getField df "year_account_created" = some y)
    (hm : getField df "month_account_created" = some mo)
    (hd : getField df "day_account_created" = some d)
    (hmk : date.mk? y mo d = some user)
    (hn : date × String) (hmem : hn ∈ holidaysUS y.toNat) :
    ∃ out, process_holidays df = some out ∧
      getField out ("days_to_" ++ _sanitize_holiday_name hn.2) =
        some (dateSubDays hn.1 user) ∧
      (0 < dateSubDays hn.1 user ↔ dateLt user hn.1) ∧
      (dateSubDays hn.1 user < 0 ↔ dateLt hn.1 user) ∧
      (dateSubDays hn.1 user = 0 ↔ hn.1 = user) := by
  obtain ⟨huser, hyear, _⟩ := date_mk?_some hmk
  have hy1 : 1 ≤ y.toNat := by
    have := huser.1
    rw [hyear] at this
    exact this
  have hy9 : y.toNat ≤ 9999 := by
    have := huser.2.1
    rw [hyear] at this
    exact this
  have hvalid := holidaysUS_valid y.toNat hy1 hy9 hn hmem
  refine ⟨holidayLoop user df (holidaysUS y.toNat), ?_, ?_, ?_, ?_, ?_⟩
  · unfold process_holidays
    rw [hy, hm, hd]
    show (date.mk? y mo d).bind
        (fun user_date => some (holidayLoop user_date df (holidaysUS y.toNat))) =
      some (holidayLoop user df (holidaysUS y.toNat))
    rw [hmk]
    rfl
  · exact holidayLoop_getField_mem user (holidaysUS y.toNat) df
      (holidaysUS_names_nodup y.toNat) hn hmem
  · rw [dateLt_iff_toordinal_lt user hn.1 huser hvalid]
    unfold dateSubDays
    omega
  · rw [dateLt_iff_toordinal_lt hn.1 user hvalid huser]
    unfold dateSubDays
    omega
  · unfold dateSubDays
    constructor
    · intro h0
      rcases dateLt_trichotomy hn.1 user with h1 | h1 | h1
      · exact absurd (toordinal_lt_of_dateLt _ _ hvalid huser h1) (by omega)
      · exact h1
      · exact absurd (toordinal_lt_of_dateLt _ _ huser hvalid h1) (by omega)
    · intro h1
      rw [h1]
      omega

theorem process_holidays_distance_witness :
    ∃ out,
      process_holidays
        [("year_account_created", 2015), ("month_account_created", 3),
         ("day_account_created", 14)] = some out ∧
      getField out "days_to_new_years_day" =
        some (dateSubDays (⟨2015, 1, 1⟩ : date) ⟨2015, 3, 14⟩) ∧
      (dateSubDays (⟨2015, 1, 1⟩ : date) ⟨2015, 3, 14⟩ < 0 ↔
        dateLt (⟨2015, 1, 1⟩ : date) ⟨2015, 3, 14⟩) := by
  obtain ⟨out, h1, h2, _, h4, _⟩ := process_holidays_distance
    [("year_account_created", 2015), ("month_account_created", 3), ("day_account_created", 14)]
    2015 3 14 ⟨2015, 3, 14⟩ (by decide) (by decide) (by decide) (by decide)
    (⟨2015, 1, 1⟩, "New Year\x27s Day") (by decide)
  exact ⟨out, h1, h2, h4⟩
